import Mathlib

/-!
# Verification of the genesis `ChromosomeWindowStream` engine

A shallow embedding of `ChromosomeWindowStream` from
`lib/genesis/population/window/chromosome_window_stream.hpp`:
the outer iterator `DerivedIterator::increment_` and the inner
`WindowView::get_element` pull closure, together with the pieces of
`WindowView` and `SequenceDict` state that this file manipulates.

The record stream is modelled as a `List α` holding the records from the
underlying input iterator's current position to its end; advancing the
iterator is taking the tail.  The caller-supplied functors
`chromosome_function` and `position_function` are the parameters
`chrOf : α → String` and `posOf : α → Nat`.
-/

namespace ChromosomeWindowStream

/-- The fatal errors the engine can raise, one constructor per `throw`
site in `chromosome_window_stream.hpp`, carrying exactly the data the
corresponding message mentions. -/
inductive StreamError where
  | duplicateChromosome (chr : String)
  | unknownChromosome (chr : String)
  | outOfOrderPosition (chr : String) (oldPos newPos : Nat)
  | chromosomeLengthExceeded (chr : String) (len oldPos : Nat)
deriving DecidableEq, Repr

/-- Modelled from the spec: the optional boundary source is "a lookup
from chromosome name to its total length" (`sequence_dict.hpp` is not
part of the sources here); we model it as an association list. -/
abbrev SequenceDict := List (String × Nat)

/-- Lookup of a chromosome's declared length: `SequenceDict::find`,
`none` playing the role of the end iterator / "not found". -/
def dictFind (d : SequenceDict) (chr : String) : Option Nat :=
  match d with
  | [] => none
  | (name, len) :: rest => if name = chr then some len else dictFind rest chr

/-- The mutable state of `DerivedIterator` together with the state of the
current `WindowView` and of its `get_element` closure:

* `cur` — the underlying input iterator `current_` (as the list of
  records from the cursor to `end_`);
* `alive` — whether `parent_` is still non-null (false once exhausted);
* `winChr`, `winFirst`, `winLast` — the current `WindowView`'s
  chromosome and first/last positions.  `winChr = none` models the
  freshly default-constructed `WindowView` before the first chromosome
  is opened (modelled from the spec: at `begin()` there is no current
  chromosome yet, so the skip loop of the first advance skips nothing);
* `isFirst` — the `is_first` flag captured by the `get_element` lambda;
* `processed` — the `processed_chromosomes_` set, as a list. -/
structure EngineState (α : Type) where
  cur : List α
  alive : Bool
  winChr : Option String
  winFirst : Nat
  winLast : Nat
  isFirst : Bool
  processed : List String
deriving DecidableEq, Repr

variable {α : Type}

/-- `DerivedIterator::increment_`: skip the rest of the current
chromosome's records, then either finish (no data left) or open a fresh
`WindowView` for the next chromosome: duplicate check, insertion into
`processed_chromosomes_`, and the boundary-policy split — with a
sequence dictionary the window gets `first_position = 1` and
`last_position` the looked-up length (error if the chromosome is
missing from the dictionary); without one it gets the placeholders
`first_position = 1`, `last_position = 1`. -/
def increment (chrOf : α → String) (dict : Option SequenceDict) (st : EngineState α) :
    Except StreamError (EngineState α) :=
  let cur1 := st.cur.dropWhile (fun r => decide (st.winChr = some (chrOf r)))
  match cur1 with
  | [] => .ok { st with cur := [], alive := false }
  | r :: _ =>
    let chr := chrOf r
    if chr ∈ st.processed then
      .error (.duplicateChromosome chr)
    else
      match dict with
      | some d =>
        match dictFind d chr with
        | none => .error (.unknownChromosome chr)
        | some len =>
          .ok { cur := cur1, alive := true, winChr := some chr, winFirst := 1,
                winLast := len, isFirst := true, processed := chr :: st.processed }
      | none =>
        .ok { cur := cur1, alive := true, winChr := some chr, winFirst := 1,
              winLast := 1, isFirst := true, processed := chr :: st.processed }

/-- The end-of-run branch of the `get_element` lambda (`cur == end`, or
the next record belongs to a different chromosome): with a sequence
dictionary, check `old_pos` against the declared length (error if
exceeded); without one, record `old_pos` as the window's
`last_position`.  Returns the `nullptr` sentinel `none`.  The `rest`
argument is the already-advanced cursor.  (The `dictFind … = none` case
is unreachable: opening the window already checked membership.) -/
def endOfRun (dict : Option SequenceDict) (chr : String) (oldPos : Nat)
    (rest : List α) (st : EngineState α) : Except StreamError (Option α × EngineState α) :=
  match dict with
  | some d =>
    match dictFind d chr with
    | some len =>
      if len < oldPos then .error (.chromosomeLengthExceeded chr len oldPos)
      else .ok (none, { st with cur := rest })
    | none => .ok (none, { st with cur := rest })
  | none => .ok (none, { st with cur := rest, winLast := oldPos })

/-- One call of the `WindowView::get_element` lambda: on the first call
return the record under the cursor without advancing; afterwards
remember `old_pos`, advance the cursor, detect the end of the run
(`endOfRun`), check strict position ordering (`old_pos >= new_pos` is
fatal), and return the new record.  The two `.ok (none, st)` fallthrough
cases correspond to `assert( cur != end )` in the source: per the spec
no further pulls are valid once the sentinel was returned. -/
def pull (chrOf : α → String) (posOf : α → Nat) (dict : Option SequenceDict)
    (st : EngineState α) : Except StreamError (Option α × EngineState α) :=
  if st.isFirst then
    match st.cur with
    | r :: _ => .ok (some r, { st with isFirst := false })
    | [] => .ok (none, st)
  else
    match st.winChr, st.cur with
    | some chr, r :: rest =>
      let oldPos := posOf r
      match rest with
      | [] => endOfRun dict chr oldPos rest st
      | next :: _ =>
        if chrOf next = chr then
          let newPos := posOf next
          if newPos ≤ oldPos then .error (.outOfOrderPosition chr oldPos newPos)
          else .ok (some next, { st with cur := rest })
        else
          endOfRun dict chr oldPos rest st
    | _, _ => .ok (none, st)

/-- Drive the current `WindowView` by repeated pulls, collecting the
returned records, until the sentinel (or an error).  `fuel` bounds the
number of pulls; `cur.length + 1` always suffices. -/
def pulls (chrOf : α → String) (posOf : α → Nat) (dict : Option SequenceDict) :
    Nat → EngineState α → Except StreamError (List α × EngineState α)
  | 0, st => .ok ([], st)
  | fuel + 1, st =>
    match pull chrOf posOf dict st with
    | .error e => .error e
    | .ok (none, st1) => .ok ([], st1)
    | .ok (some r, st1) =>
      match pulls chrOf posOf dict fuel st1 with
      | .error e => .error e
      | .ok (rs, st2) => .ok (r :: rs, st2)

/-- What one fully consumed `WindowView` exposes: chromosome name,
first/last positions (as they stand once the run has been consumed),
and the records that the pulls returned. -/
structure WindowResult (α : Type) where
  chr : String
  firstPos : Nat
  lastPos : Nat
  recs : List α
deriving DecidableEq, Repr

/-- A consumer that drives every `WindowView` to completion: while the
iterator is alive, consume the current window, advance with
`increment`, and continue.  `fuel` bounds the number of windows;
`cur.length + 1` always suffices. -/
def traverse (chrOf : α → String) (posOf : α → Nat) (dict : Option SequenceDict) :
    Nat → EngineState α → Except StreamError (List (WindowResult α))
  | 0, _ => .ok []
  | fuel + 1, st =>
    if st.alive then
      match pulls chrOf posOf dict (st.cur.length + 1) st with
      | .error e => .error e
      | .ok (rs, st1) =>
        match increment chrOf dict st1 with
        | .error e => .error e
        | .ok st2 =>
          match traverse chrOf posOf dict fuel st2 with
          | .error e => .error e
          | .ok ws =>
            .ok ({ chr := (st1.winChr).getD "", firstPos := st1.winFirst,
                   lastPos := st1.winLast, recs := rs } :: ws)
    else .ok []

/-- The engine state as constructed, before `begin()` runs the first
advance: cursor at the first record, default `WindowView`, empty
`processed_chromosomes_`. -/
def initState (recs : List α) : EngineState α :=
  { cur := recs, alive := true, winChr := none, winFirst := 0, winLast := 0,
    isFirst := true, processed := [] }

/-- `begin()`: construct the iterator and perform the first
`increment_`, materialising the first window (or the end state). -/
def beginState (chrOf : α → String) (dict : Option SequenceDict) (recs : List α) :
    Except StreamError (EngineState α) :=
  increment chrOf dict (initState recs)

/-- Full traversal of a record stream: `begin()`, then consume every
window to completion. -/
def runStream (chrOf : α → String) (posOf : α → Nat) (dict : Option SequenceDict)
    (recs : List α) : Except StreamError (List (WindowResult α)) :=
  match beginState chrOf dict recs with
  | .error e => .error e
  | .ok st => traverse chrOf posOf dict (recs.length + 1) st

/-- The Boolean test "this record belongs to chromosome `c`". -/
def chrIs (chrOf : α → String) (c : String) (x : α) : Bool :=
  decide (chrOf x = c)

/-- The chromosome of each contiguous run of a record stream, in
first-seen order (one entry per run). -/
def runHeads (chrOf : α → String) : List α → List String
  | [] => []
  | r :: rs => chrOf r :: runHeads chrOf (rs.dropWhile (chrIs chrOf (chrOf r)))
termination_by l => l.length
decreasing_by
  simp_wf
  exact Nat.lt_succ_of_le (List.dropWhile_sublist _).length_le

/-- Helper for stating the final `last_position` of a fully consumed
window: the declared length under the reference-driven policy, the last
observed position under the data-driven policy. -/
def finalLast (dict : Option SequenceDict) (wl oldPos : Nat) : Nat :=
  match dict with
  | some _ => wl
  | none => oldPos

/-- The `last_position` a fully consumed window is expected to report
for the run starting at `r` with remaining records `rs`: the declared
length under the reference-driven policy, the position of the run's
last record under the data-driven policy. -/
def expectedLast (chrOf : α → String) (posOf : α → Nat) (dict : Option SequenceDict)
    (r : α) (rs : List α) : Nat :=
  match dict with
  | some d => (dictFind d (chrOf r)).getD 0
  | none => posOf ((rs.takeWhile (chrIs chrOf (chrOf r))).getLastD r)

/-- The windows a fully driven traversal is expected to produce, one
per contiguous chromosome run: the run's chromosome, `first_position = 1`,
`last_position` from the dictionary (reference-driven) or from the last
record of the run (data-driven), and the run's records. -/
def expectedWindows (chrOf : α → String) (posOf : α → Nat) (dict : Option SequenceDict) :
    List α → List (WindowResult α)
  | [] => []
  | r :: rs =>
    { chr := chrOf r, firstPos := 1,
      lastPos := expectedLast chrOf posOf dict r rs,
      recs := r :: rs.takeWhile (chrIs chrOf (chrOf r)) } ::
      expectedWindows chrOf posOf dict (rs.dropWhile (chrIs chrOf (chrOf r)))
termination_by l => l.length
decreasing_by
  simp_wf
  exact Nat.lt_succ_of_le (List.dropWhile_sublist _).length_le

/-- A concrete record shape, as assumed by
`make_default_chromosome_window_stream`: public members `chromosome`
and `position`, extracted by the default functors. -/
structure GRec where
  chromosome : String
  position : Nat
deriving DecidableEq, Repr

/-! ## List utilities about `dropWhile` and `takeWhile` -/

theorem mem_of_mem_dropWhile {p : α → Bool} {l : List α} {a : α}
    (h : a ∈ l.dropWhile p) : a ∈ l :=
  (List.dropWhile_sublist p).subset h

theorem dropWhile_head?_neg {p : α → Bool} {l : List α} {y : α}
    (h : (l.dropWhile p).head? = some y) : p y = false := by
  induction l with
  | nil => simp at h
  | cons a t ih =>
    rw [List.dropWhile_cons] at h
    by_cases hp : p a
    · rw [if_pos hp] at h
      exact ih h
    · rw [if_neg hp] at h
      simp only [List.head?_cons, Option.some_inj] at h
      subst h
      exact Bool.eq_false_iff.mpr hp

theorem dropWhile_append_pos {p : α → Bool} {xs ys : List α}
    (h : ∀ x ∈ xs, p x = true) : (xs ++ ys).dropWhile p = ys.dropWhile p := by
  induction xs with
  | nil => simp
  | cons a t ih =>
    rw [List.cons_append, List.dropWhile_cons, if_pos (h a (by simp))]
    exact ih (fun x hx => h x (by simp [hx]))

theorem dropWhile_tail_subset (p : α → Bool) (l : List α) :
    l.tail.dropWhile p ⊆ l.dropWhile p := by
  cases l with
  | nil => simp
  | cons a t =>
    rw [List.tail_cons, List.dropWhile_cons]
    by_cases hp : p a
    · rw [if_pos hp]
      exact fun x hx => hx
    · rw [if_neg hp]
      exact fun x hx => List.mem_cons_of_mem a (mem_of_mem_dropWhile hx)

theorem dropWhile_drop_subset (p : α → Bool) (l : List α) (n : Nat) :
    (l.drop n).dropWhile p ⊆ l.dropWhile p := by
  induction n with
  | zero => simp
  | succ m ih =>
    intro x hx
    apply ih
    apply dropWhile_tail_subset p (l.drop m)
    rw [List.tail_drop]
    exact hx

theorem dropWhile_eq_drop (p : α → Bool) (l : List α) :
    ∃ n, l.dropWhile p = l.drop n := by
  induction l with
  | nil => exact ⟨0, rfl⟩
  | cons a t ih =>
    by_cases hp : p a
    · obtain ⟨n, hn⟩ := ih
      exact ⟨n + 1, by rw [List.dropWhile_cons, if_pos hp, hn, List.drop_succ_cons]⟩
    · exact ⟨0, by rw [List.dropWhile_cons, if_neg hp, List.drop_zero]⟩

theorem mem_dropWhile_of_neg {p : α → Bool} {l : List α} {a : α}
    (hmem : a ∈ l) (ha : p a = false) : a ∈ l.dropWhile p := by
  induction l with
  | nil => simp at hmem
  | cons b t ih =>
    rw [List.dropWhile_cons]
    by_cases hp : p b
    · rw [if_pos hp]
      rcases List.mem_cons.mp hmem with h | h
      · subst h; rw [hp] at ha; cases ha
      · exact ih h
    · rw [if_neg hp]
      exact hmem

/-! ## Facts about `runHeads` -/

variable {chrOf : α → String}

theorem runHeads_nil : runHeads chrOf ([] : List α) = [] := by
  rw [runHeads]

theorem runHeads_cons (r : α) (rs : List α) :
    runHeads chrOf (r :: rs) =
      chrOf r :: runHeads chrOf (rs.dropWhile (chrIs chrOf (chrOf r))) := by
  rw [runHeads]

theorem runHeads_cons_self (r : α) (rs : List α) :
    runHeads chrOf (r :: rs) =
      chrOf r :: runHeads chrOf ((r :: rs).dropWhile (chrIs chrOf (chrOf r))) := by
  rw [runHeads_cons, List.dropWhile_cons, if_pos (by simp [chrIs])]

theorem chr_mem_runHeads {l : List α} {r : α} (h : r ∈ l) :
    chrOf r ∈ runHeads chrOf l := by
  induction l using runHeads.induct chrOf with
  | case1 => simp at h
  | case2 r0 rs ih =>
    rw [runHeads_cons]
    rcases List.mem_cons.mp h with h0 | h0
    · subst h0; exact List.mem_cons_self _ _
    · by_cases hc : chrOf r = chrOf r0
      · rw [hc]; exact List.mem_cons_self _ _
      · exact List.mem_cons_of_mem _
          (ih (mem_dropWhile_of_neg h0 (by simp [chrIs, hc])))

theorem runHeads_tail_suffix (l : List α) :
    ∃ t, t ++ runHeads chrOf l.tail = runHeads chrOf l := by
  cases l with
  | nil => exact ⟨[], rfl⟩
  | cons r rs =>
    rw [List.tail_cons, runHeads_cons]
    cases rs with
    | nil => exact ⟨[chrOf r], by simp [runHeads_nil]⟩
    | cons r1 rs1 =>
      by_cases hc : chrOf r1 = chrOf r
      · refine ⟨[], ?_⟩
        rw [List.nil_append, runHeads_cons, hc,
          List.dropWhile_cons, if_pos (by simp [chrIs, hc])]
      · rw [List.dropWhile_cons, if_neg (by simp [chrIs, hc])]
        exact ⟨[chrOf r], rfl⟩

theorem runHeads_drop_suffix (n : Nat) (l : List α) :
    ∃ t, t ++ runHeads chrOf (l.drop n) = runHeads chrOf l := by
  induction n with
  | zero => exact ⟨[], by rw [List.drop_zero, List.nil_append]⟩
  | succ m ih =>
    obtain ⟨t1, h1⟩ := ih
    obtain ⟨t2, h2⟩ := @runHeads_tail_suffix α chrOf (l.drop m)
    rw [List.tail_drop] at h2
    exact ⟨t1 ++ t2, by rw [List.append_assoc, h2, h1]⟩

theorem runHeads_length_le (l : List α) : (runHeads chrOf l).length ≤ l.length := by
  induction l using runHeads.induct chrOf with
  | case1 => simp [runHeads_nil]
  | case2 r rs ih =>
    rw [runHeads_cons, List.length_cons, List.length_cons]
    have := (List.dropWhile_sublist (l := rs) (chrIs chrOf (chrOf r))).length_le
    omega

theorem nodup_runHeads_drop {l : List α} (n : Nat)
    (h : (runHeads chrOf l).Nodup) : (runHeads chrOf (l.drop n)).Nodup := by
  obtain ⟨t, ht⟩ := @runHeads_drop_suffix α chrOf n l
  rw [← ht] at h
  exact (List.nodup_append.mp h).2.1

/-! ## Characterization of a single pull -/

theorem skip_pred_eq (chrOf : α → String) (c : String) :
    (fun r : α => decide ((some c : Option String) = some (chrOf r))) = chrIs chrOf c := by
  funext r
  simp [chrIs, eq_comm]

theorem endOfRun_none_eq (chr : String) (oldPos : Nat)
    (rest : List α) (st : EngineState α) :
    endOfRun (α := α) none chr oldPos rest st =
      .ok (none, { st with cur := rest, winLast := oldPos }) := rfl

theorem endOfRun_some_ok {d : SequenceDict} {chr : String} {oldPos len : Nat}
    (hfind : dictFind d chr = some len) (hle : oldPos ≤ len)
    (rest : List α) (st : EngineState α) :
    endOfRun (some d) chr oldPos rest st = .ok (none, { st with cur := rest }) := by
  simp only [endOfRun, hfind, if_neg (by omega : ¬ len < oldPos)]

theorem endOfRun_some_err {d : SequenceDict} {chr : String} {oldPos len : Nat}
    (hfind : dictFind d chr = some len) (hlt : len < oldPos)
    (rest : List α) (st : EngineState α) :
    endOfRun (some d) chr oldPos rest st =
      .error (.chromosomeLengthExceeded chr len oldPos) := by
  simp only [endOfRun, hfind, if_pos hlt]

theorem endOfRun_ok {dict : Option SequenceDict} {chr : String} {oldPos : Nat}
    {rest : List α} {cur : List α} {al : Bool} {wc : Option String} {w1 wl : Nat}
    {if1 : Bool} {ps : List String} {out : Option α × EngineState α}
    (h : endOfRun dict chr oldPos rest
        (⟨cur, al, wc, w1, wl, if1, ps⟩ : EngineState α) = .ok out) :
    out.1 = none ∧ out.2.cur = rest ∧ out.2.alive = al ∧ out.2.winChr = wc ∧
      out.2.winFirst = w1 ∧ out.2.isFirst = if1 ∧ out.2.processed = ps := by
  cases dict with
  | none =>
    simp only [endOfRun, Except.ok.injEq] at h
    subst h
    simp
  | some d =>
    cases hfind : dictFind d chr with
    | none =>
      simp only [endOfRun, hfind, Except.ok.injEq] at h
      subst h
      simp
    | some len =>
      by_cases hlt : len < oldPos
      · simp only [endOfRun, hfind, if_pos hlt] at h
        cases h
      · simp only [endOfRun, hfind, if_neg hlt, Except.ok.injEq] at h
        subst h
        simp

theorem endOfRun_error {dict : Option SequenceDict} {chr : String} {oldPos : Nat}
    {rest : List α} {st : EngineState α} {e : StreamError}
    (h : endOfRun dict chr oldPos rest st = .error e) :
    ∃ d len, dict = some d ∧ dictFind d chr = some len ∧ len < oldPos ∧
      e = .chromosomeLengthExceeded chr len oldPos := by
  cases dict with
  | none =>
    simp only [endOfRun] at h
    exact Except.noConfusion h
  | some d =>
    cases hfind : dictFind d chr with
    | none =>
      simp only [endOfRun, hfind] at h
      exact Except.noConfusion h
    | some len =>
      by_cases hlt : len < oldPos
      · simp only [endOfRun, hfind, if_pos hlt, Except.error.injEq] at h
        exact ⟨d, len, rfl, hfind, hlt, h.symm⟩
      · simp only [endOfRun, hfind, if_neg hlt] at h
        exact Except.noConfusion h

theorem pull_first {chrOf : α → String} {posOf : α → Nat} {dict : Option SequenceDict}
    {st : EngineState α} {r : α} {rest : List α}
    (hif : st.isFirst = true) (hcur : st.cur = r :: rest) :
    pull chrOf posOf dict st = .ok (some r, { st with isFirst := false }) := by
  unfold pull
  rw [hif, hcur]
  simp

theorem pull_step {chrOf : α → String} {posOf : α → Nat} {dict : Option SequenceDict}
    {c : String} {r next : α} {rest2 : List α} {al : Bool} {w1 wl : Nat} {ps : List String}
    (hc : chrOf next = c) (hlt : posOf r < posOf next) :
    pull chrOf posOf dict
        (⟨r :: next :: rest2, al, some c, w1, wl, false, ps⟩ : EngineState α) =
      .ok (some next, ⟨next :: rest2, al, some c, w1, wl, false, ps⟩) := by
  simp only [pull, hc, if_pos rfl, if_neg (by omega : ¬ posOf next ≤ posOf r)]
  rfl

theorem pull_step_ooo {chrOf : α → String} {posOf : α → Nat} {dict : Option SequenceDict}
    {c : String} {r next : α} {rest2 : List α} {al : Bool} {w1 wl : Nat} {ps : List String}
    (hc : chrOf next = c) (hle : posOf next ≤ posOf r) :
    pull chrOf posOf dict
        (⟨r :: next :: rest2, al, some c, w1, wl, false, ps⟩ : EngineState α) =
      .error (.outOfOrderPosition c (posOf r) (posOf next)) := by
  simp only [pull, hc, if_pos rfl, if_pos hle]
  rfl

theorem pull_runEnd {chrOf : α → String} {posOf : α → Nat} {dict : Option SequenceDict}
    {c : String} {r : α} {rest : List α} {al : Bool} {w1 wl : Nat} {ps : List String}
    (hend : ∀ y, rest.head? = some y → chrOf y ≠ c) :
    pull chrOf posOf dict (⟨r :: rest, al, some c, w1, wl, false, ps⟩ : EngineState α) =
      endOfRun dict c (posOf r) rest ⟨r :: rest, al, some c, w1, wl, false, ps⟩ := by
  cases rest with
  | nil => rfl
  | cons y rest2 =>
    simp only [pull, if_neg (hend y rfl)]
    rfl

theorem pull_ok_fields {chrOf : α → String} {posOf : α → Nat} {dict : Option SequenceDict}
    {cur : List α} {al : Bool} {wc : Option String} {w1 wl : Nat} {if1 : Bool}
    {ps : List String} {x : Option α} {st' : EngineState α}
    (h : pull chrOf posOf dict (⟨cur, al, wc, w1, wl, if1, ps⟩ : EngineState α) =
      .ok (x, st')) :
    st'.alive = al ∧ st'.winChr = wc ∧ st'.winFirst = w1 ∧ st'.processed = ps ∧
      (st'.cur = cur ∨ st'.cur = cur.tail) := by
  cases if1 with
  | true =>
    cases cur with
    | nil =>
      simp only [pull, eq_self_iff_true, if_true, Bool.false_eq_true, if_false, Except.ok.injEq, Prod.mk.injEq] at h
      obtain ⟨-, h2⟩ := h
      subst h2
      simp
    | cons r rest =>
      simp only [pull, eq_self_iff_true, if_true, Bool.false_eq_true, if_false, Except.ok.injEq, Prod.mk.injEq] at h
      obtain ⟨-, h2⟩ := h
      subst h2
      simp
  | false =>
    cases wc with
    | none =>
      simp only [pull, eq_self_iff_true, if_true, Bool.false_eq_true, if_false, Except.ok.injEq, Prod.mk.injEq] at h
      obtain ⟨-, h2⟩ := h
      subst h2
      simp
    | some chr =>
      cases cur with
      | nil =>
        simp only [pull, eq_self_iff_true, if_true, Bool.false_eq_true, if_false, Except.ok.injEq, Prod.mk.injEq] at h
        obtain ⟨-, h2⟩ := h
        subst h2
        simp
      | cons r rest =>
        cases rest with
        | nil =>
          simp only [pull, eq_self_iff_true, if_true, Bool.false_eq_true, if_false, eq_self_iff_true, if_true, Bool.false_eq_true, if_false] at h
          have hf := endOfRun_ok h
          simp only at hf
          exact ⟨hf.2.2.1, hf.2.2.2.1, hf.2.2.2.2.1, hf.2.2.2.2.2.2, Or.inr hf.2.1⟩
        | cons next rest2 =>
          by_cases hc : chrOf next = chr
          · by_cases hle : posOf next ≤ posOf r
            · simp only [pull, eq_self_iff_true, if_true, Bool.false_eq_true, if_false, hc, if_pos rfl, if_pos hle] at h
              exact Except.noConfusion h
            · simp only [pull, eq_self_iff_true, if_true, Bool.false_eq_true, if_false, hc, if_pos rfl, if_neg hle, Except.ok.injEq,
                Prod.mk.injEq] at h
              obtain ⟨-, h2⟩ := h
              subst h2
              simp
          · simp only [pull, eq_self_iff_true, if_true, Bool.false_eq_true, if_false, if_neg hc] at h
            have hf := endOfRun_ok h
            simp only at hf
            exact ⟨hf.2.2.1, hf.2.2.2.1, hf.2.2.2.2.1, hf.2.2.2.2.2.2, Or.inr hf.2.1⟩

theorem pull_error_cases {chrOf : α → String} {posOf : α → Nat} {dict : Option SequenceDict}
    {st : EngineState α} {e : StreamError}
    (h : pull chrOf posOf dict st = .error e) :
    (∃ chr o n, e = .outOfOrderPosition chr o n) ∨
      (∃ chr len o, e = .chromosomeLengthExceeded chr len o) := by
  obtain ⟨cur, al, wc, w1, wl, if1, ps⟩ := st
  cases if1 with
  | true =>
    cases cur with
    | nil => simp only [pull, eq_self_iff_true, if_true, Bool.false_eq_true, if_false, eq_self_iff_true, if_true, Bool.false_eq_true, if_false] at h; exact Except.noConfusion h
    | cons r rest => simp only [pull, eq_self_iff_true, if_true, Bool.false_eq_true, if_false, eq_self_iff_true, if_true, Bool.false_eq_true, if_false] at h; exact Except.noConfusion h
  | false =>
    cases wc with
    | none => simp only [pull, eq_self_iff_true, if_true, Bool.false_eq_true, if_false, eq_self_iff_true, if_true, Bool.false_eq_true, if_false] at h; exact Except.noConfusion h
    | some chr =>
      cases cur with
      | nil => simp only [pull, eq_self_iff_true, if_true, Bool.false_eq_true, if_false, eq_self_iff_true, if_true, Bool.false_eq_true, if_false] at h; exact Except.noConfusion h
      | cons r rest =>
        cases rest with
        | nil =>
          simp only [pull, eq_self_iff_true, if_true, Bool.false_eq_true, if_false, eq_self_iff_true, if_true, Bool.false_eq_true, if_false] at h
          obtain ⟨d, len, -, -, -, he⟩ := endOfRun_error h
          exact Or.inr ⟨chr, len, _, he⟩
        | cons next rest2 =>
          by_cases hc : chrOf next = chr
          · by_cases hle : posOf next ≤ posOf r
            · simp only [pull, eq_self_iff_true, if_true, Bool.false_eq_true, if_false, hc, if_pos rfl, if_pos hle, Except.error.injEq] at h
              exact Or.inl ⟨chr, posOf r, posOf next, h.symm⟩
            · simp only [pull, eq_self_iff_true, if_true, Bool.false_eq_true, if_false, hc, if_pos rfl, if_neg hle] at h
              exact Except.noConfusion h
          · simp only [pull, eq_self_iff_true, if_true, Bool.false_eq_true, if_false, if_neg hc] at h
            obtain ⟨d, len, -, -, -, he⟩ := endOfRun_error h
            exact Or.inr ⟨chr, len, _, he⟩

theorem pulls_loop {chrOf : α → String} {posOf : α → Nat} {dict : Option SequenceDict}
    {c : String} {ys : List α} {al : Bool} {w1 wl : Nat} {ps : List String}
    (hys : ∀ y, ys.head? = some y → chrOf y ≠ c)
    (xs : List α) (x : α) (fuel : Nat)
    (hx : chrOf x = c) (hxs : ∀ a ∈ xs, chrOf a = c)
    (hchain : List.Chain' (fun a b => posOf a < posOf b) (x :: xs))
    (hdict : ∀ d, dict = some d → ∃ len, dictFind d c = some len ∧
      ∀ a ∈ x :: xs, posOf a ≤ len)
    (hfuel : xs.length < fuel) :
    pulls chrOf posOf dict fuel
        (⟨x :: (xs ++ ys), al, some c, w1, wl, false, ps⟩ : EngineState α) =
      .ok (xs, ⟨ys, al, some c, w1, finalLast dict wl (posOf (xs.getLastD x)), false,
        ps⟩) := by
  induction xs generalizing x fuel with
  | nil =>
    obtain ⟨f, rfl⟩ : ∃ f, fuel = f + 1 := ⟨fuel - 1, by omega⟩
    have hpull := @pull_runEnd α chrOf posOf dict c x ys al w1 wl ps hys
    cases dict with
    | none =>
      rw [endOfRun_none_eq] at hpull
      simp only [List.nil_append] at hpull ⊢
      simp only [pulls, hpull]
      rfl
    | some d =>
      obtain ⟨len, hfind, hall⟩ := hdict d rfl
      rw [endOfRun_some_ok hfind (hall x (by simp))] at hpull
      simp only [List.nil_append] at hpull ⊢
      simp only [pulls, hpull]
      rfl
  | cons x1 xs1 ih =>
    obtain ⟨f, rfl⟩ : ∃ f, fuel = f + 1 := ⟨fuel - 1, by omega⟩
    have hx1 : chrOf x1 = c := hxs x1 (List.mem_cons_self x1 xs1)
    have hlt : posOf x < posOf x1 := (List.chain'_cons.mp hchain).1
    have hstep := @pull_step α chrOf posOf dict c x x1 (xs1 ++ ys) al w1 wl ps
      hx1 hlt
    have hrec := ih x1 f hx1
      (fun a ha => hxs a (List.mem_cons_of_mem _ ha))
      ((List.chain'_cons.mp hchain).2)
      (fun d hd => by
        obtain ⟨len, hfind, hall⟩ := hdict d hd
        exact ⟨len, hfind, fun a ha => hall a (List.mem_cons_of_mem _ ha)⟩)
      (by simp only [List.length_cons] at hfuel; omega)
    simp only [List.cons_append] at hrec ⊢
    simp only [pulls, hstep, hrec]
    rw [List.getLastD_cons]

theorem pulls_run {chrOf : α → String} {posOf : α → Nat} {dict : Option SequenceDict}
    {c : String} {ys : List α} {al : Bool} {w1 wl : Nat} {ps : List String}
    (hys : ∀ y, ys.head? = some y → chrOf y ≠ c)
    (xs : List α) (x : α) (fuel : Nat)
    (hx : chrOf x = c) (hxs : ∀ a ∈ xs, chrOf a = c)
    (hchain : List.Chain' (fun a b => posOf a < posOf b) (x :: xs))
    (hdict : ∀ d, dict = some d → ∃ len, dictFind d c = some len ∧
      ∀ a ∈ x :: xs, posOf a ≤ len)
    (hfuel : xs.length + 1 < fuel) :
    pulls chrOf posOf dict fuel
        (⟨x :: (xs ++ ys), al, some c, w1, wl, true, ps⟩ : EngineState α) =
      .ok (x :: xs, ⟨ys, al, some c, w1, finalLast dict wl (posOf (xs.getLastD x)),
        false, ps⟩) := by
  obtain ⟨f, rfl⟩ : ∃ f, fuel = f + 1 := ⟨fuel - 1, by omega⟩
  have hfirst : pull chrOf posOf dict
      (⟨x :: (xs ++ ys), al, some c, w1, wl, true, ps⟩ : EngineState α) =
      .ok (some x, ⟨x :: (xs ++ ys), al, some c, w1, wl, false, ps⟩) :=
    pull_first rfl rfl
  have hloop := @pulls_loop α chrOf posOf dict c ys al w1 wl ps
    hys xs x f hx hxs hchain hdict (by omega)
  simp only [pulls, hfirst, hloop]

theorem pulls_ok_fields {chrOf : α → String} {posOf : α → Nat} {dict : Option SequenceDict}
    {fuel : Nat} {st : EngineState α} {rs : List α} {st' : EngineState α}
    (h : pulls chrOf posOf dict fuel st = .ok (rs, st')) :
    st'.alive = st.alive ∧ st'.winChr = st.winChr ∧ st'.winFirst = st.winFirst ∧
      st'.processed = st.processed ∧ ∃ n, st'.cur = st.cur.drop n := by
  induction fuel generalizing st rs with
  | zero =>
    simp only [pulls, Except.ok.injEq, Prod.mk.injEq] at h
    obtain ⟨-, h2⟩ := h
    subst h2
    exact ⟨rfl, rfl, rfl, rfl, 0, rfl⟩
  | succ f ih =>
    cases hp : pull chrOf posOf dict st with
    | error e =>
      simp only [pulls, hp] at h
      exact Except.noConfusion h
    | ok out =>
      obtain ⟨x, st1⟩ := out
      obtain ⟨cur0, al0, wc0, w10, wl0, if0, ps0⟩ := st
      have hf := pull_ok_fields hp
      cases x with
      | none =>
        simp only [pulls, hp, Except.ok.injEq, Prod.mk.injEq] at h
        obtain ⟨-, h2⟩ := h
        subst h2
        refine ⟨hf.1, hf.2.1, hf.2.2.1, hf.2.2.2.1, ?_⟩
        rcases hf.2.2.2.2 with h5 | h5
        · exact ⟨0, by rw [h5, List.drop_zero]⟩
        · exact ⟨1, by rw [h5, List.drop_one]⟩
      | some r =>
        cases hq : pulls chrOf posOf dict f st1 with
        | error e =>
          simp only [pulls, hp, hq] at h
          exact Except.noConfusion h
        | ok out2 =>
          obtain ⟨rs2, st2⟩ := out2
          simp only [pulls, hp, hq, Except.ok.injEq, Prod.mk.injEq] at h
          obtain ⟨-, h2⟩ := h
          subst h2
          obtain ⟨g1, g2, g3, g4, n, g5⟩ := ih hq
          refine ⟨g1.trans hf.1, g2.trans hf.2.1, g3.trans hf.2.2.1,
            g4.trans hf.2.2.2.1, ?_⟩
          rcases hf.2.2.2.2 with h5 | h5
          · exact ⟨n, by rw [g5, h5]⟩
          · exact ⟨n + 1, by
              rw [g5, h5, ← List.drop_one, List.drop_drop, Nat.add_comm]⟩

theorem pulls_error_cases {chrOf : α → String} {posOf : α → Nat}
    {dict : Option SequenceDict} {fuel : Nat} {st : EngineState α} {e : StreamError}
    (h : pulls chrOf posOf dict fuel st = .error e) :
    (∃ chr o n, e = .outOfOrderPosition chr o n) ∨
      (∃ chr len o, e = .chromosomeLengthExceeded chr len o) := by
  induction fuel generalizing st with
  | zero => exact Except.noConfusion h
  | succ f ih =>
    cases hp : pull chrOf posOf dict st with
    | error e1 =>
      simp only [pulls, hp, Except.error.injEq] at h
      subst h
      exact pull_error_cases hp
    | ok out =>
      obtain ⟨x, st1⟩ := out
      cases x with
      | none =>
        simp only [pulls, hp] at h
        exact Except.noConfusion h
      | some r =>
        cases hq : pulls chrOf posOf dict f st1 with
        | error e1 =>
          simp only [pulls, hp, hq, Except.error.injEq] at h
          subst h
          exact ih hq
        | ok out2 =>
          obtain ⟨rs2, st2⟩ := out2
          simp only [pulls, hp, hq] at h
          exact Except.noConfusion h

/-! ## Characterization of one advance of the outer iterator -/

theorem skip_pred_none (chrOf : α → String) :
    (fun r : α => decide ((none : Option String) = some (chrOf r))) = fun _ => false := by
  funext r
  simp

theorem dropWhile_const_false (l : List α) :
    l.dropWhile (fun _ => false) = l := by
  cases l with
  | nil => rfl
  | cons a t => rw [List.dropWhile_cons]; simp

theorem increment_skip_nil {chrOf : α → String} {dict : Option SequenceDict}
    {st : EngineState α}
    (hskip : st.cur.dropWhile (fun r => decide (st.winChr = some (chrOf r))) = []) :
    increment chrOf dict st = .ok { st with cur := [], alive := false } := by
  simp only [increment, hskip]

theorem increment_dup {chrOf : α → String} {dict : Option SequenceDict}
    {st : EngineState α} {r : α} {rest : List α}
    (hskip : st.cur.dropWhile (fun r => decide (st.winChr = some (chrOf r))) = r :: rest)
    (hmem : chrOf r ∈ st.processed) :
    increment chrOf dict st = .error (.duplicateChromosome (chrOf r)) := by
  simp only [increment, hskip, if_pos hmem]

theorem increment_open_none {chrOf : α → String} {st : EngineState α} {r : α}
    {rest : List α}
    (hskip : st.cur.dropWhile (fun r => decide (st.winChr = some (chrOf r))) = r :: rest)
    (hmem : chrOf r ∉ st.processed) :
    increment chrOf none st =
      .ok ⟨r :: rest, true, some (chrOf r), 1, 1, true, chrOf r :: st.processed⟩ := by
  simp only [increment, hskip, if_neg hmem]

theorem increment_open_some {chrOf : α → String} {d : SequenceDict}
    {st : EngineState α} {r : α} {rest : List α} {len : Nat}
    (hskip : st.cur.dropWhile (fun r => decide (st.winChr = some (chrOf r))) = r :: rest)
    (hmem : chrOf r ∉ st.processed) (hfind : dictFind d (chrOf r) = some len) :
    increment chrOf (some d) st =
      .ok ⟨r :: rest, true, some (chrOf r), 1, len, true, chrOf r :: st.processed⟩ := by
  simp only [increment, hskip, if_neg hmem, hfind]

theorem increment_unknown {chrOf : α → String} {d : SequenceDict}
    {st : EngineState α} {r : α} {rest : List α}
    (hskip : st.cur.dropWhile (fun r => decide (st.winChr = some (chrOf r))) = r :: rest)
    (hmem : chrOf r ∉ st.processed) (hfind : dictFind d (chrOf r) = none) :
    increment chrOf (some d) st = .error (.unknownChromosome (chrOf r)) := by
  simp only [increment, hskip, if_neg hmem, hfind]

theorem traverse_dead {chrOf : α → String} {posOf : α → Nat} {dict : Option SequenceDict}
    {st : EngineState α} (fuel : Nat) (halive : st.alive = false) :
    traverse chrOf posOf dict fuel st = .ok [] := by
  cases fuel with
  | zero => rfl
  | succ f => simp only [traverse, halive, Bool.false_eq_true, if_false]

/-! ## Helpers for run decomposition -/

theorem mem_takeWhile_chr {chrOf : α → String} {c : String} {l : List α} {a : α}
    (h : a ∈ l.takeWhile (chrIs chrOf c)) : chrOf a = c := by
  have := List.mem_takeWhile_imp h
  simpa [chrIs] using this

theorem head_dropWhile_chr {chrOf : α → String} {c : String} {l : List α} {y : α}
    (h : (l.dropWhile (chrIs chrOf c)).head? = some y) : chrOf y ≠ c := by
  have := dropWhile_head?_neg h
  simpa [chrIs] using this

theorem chain'_strict_of_run {chrOf : α → String} {posOf : α → Nat} {c : String} :
    ∀ l : List α, (∀ a ∈ l, chrOf a = c) →
    List.Chain' (fun a b => chrOf a = chrOf b → posOf a < posOf b) l →
    List.Chain' (fun a b => posOf a < posOf b) l
  | [], _, _ => List.chain'_nil
  | [a], _, _ => List.chain'_singleton a
  | a :: b :: l, hmem, hch => by
    rw [List.chain'_cons] at hch ⊢
    refine ⟨hch.1 ?_, chain'_strict_of_run (b :: l)
      (fun x hx => hmem x (List.mem_cons_of_mem a hx)) hch.2⟩
    rw [hmem a (List.mem_cons_self a _), hmem b (List.mem_cons_of_mem a (List.mem_cons_self b _))]

theorem expectedWindows_nil {chrOf : α → String} {posOf : α → Nat}
    {dict : Option SequenceDict} :
    expectedWindows chrOf posOf dict ([] : List α) = [] := by
  rw [expectedWindows]

theorem expectedWindows_cons {chrOf : α → String} {posOf : α → Nat}
    {dict : Option SequenceDict} (r : α) (rs : List α) :
    expectedWindows chrOf posOf dict (r :: rs) =
      { chr := chrOf r, firstPos := 1,
        lastPos := expectedLast chrOf posOf dict r rs,
        recs := r :: rs.takeWhile (chrIs chrOf (chrOf r)) } ::
        expectedWindows chrOf posOf dict (rs.dropWhile (chrIs chrOf (chrOf r))) := by
  rw [expectedWindows]

/-- The full good-stream traversal: starting from a freshly opened
window for the first run, driving every window to completion yields
exactly one window per contiguous chromosome run. -/
theorem traverse_good {chrOf : α → String} {posOf : α → Nat}
    {dict : Option SequenceDict} :
    ∀ (fuel : Nat) (r0 : α) (l' : List α) (wl : Nat) (ps : List String),
    (runHeads chrOf (r0 :: l')).Nodup →
    (∀ a ∈ r0 :: l', chrOf a ∉ ps) →
    List.Chain' (fun a b => chrOf a = chrOf b → posOf a < posOf b) (r0 :: l') →
    (∀ d, dict = some d → ∀ a ∈ r0 :: l', ∃ len,
      dictFind d (chrOf a) = some len ∧ posOf a ≤ len) →
    (∀ d, dict = some d → dictFind d (chrOf r0) = some wl) →
    (runHeads chrOf (r0 :: l')).length ≤ fuel →
    traverse chrOf posOf dict fuel
        (⟨r0 :: l', true, some (chrOf r0), 1, wl, true, chrOf r0 :: ps⟩ : EngineState α) =
      .ok (expectedWindows chrOf posOf dict (r0 :: l')) := by
  intro fuel
  induction fuel with
  | zero =>
    intro r0 l' wl ps hnd hdisj hch hdict hwl hfl
    rw [runHeads_cons] at hfl
    simp at hfl
  | succ f ih =>
    intro r0 l' wl ps hnd hdisj hch hdict hwl hfl
    obtain ⟨xs, hxs⟩ : ∃ xs, l'.takeWhile (chrIs chrOf (chrOf r0)) = xs := ⟨_, rfl⟩
    obtain ⟨ys, hys⟩ : ∃ ys, l'.dropWhile (chrIs chrOf (chrOf r0)) = ys := ⟨_, rfl⟩
    have hsplit : xs ++ ys = l' := by
      rw [← hxs, ← hys, List.takeWhile_append_dropWhile]
    have hmemxs : ∀ a ∈ xs, chrOf a = chrOf r0 := fun a ha =>
      mem_takeWhile_chr (c := chrOf r0) (hxs ▸ ha)
    have hheadys : ∀ y, ys.head? = some y → chrOf y ≠ chrOf r0 := fun y hy =>
      head_dropWhile_chr (hys ▸ hy)
    have hrh : runHeads chrOf (r0 :: l') = chrOf r0 :: runHeads chrOf ys := by
      rw [runHeads_cons, hys]
    have hchfull : List.Chain' (fun a b => chrOf a = chrOf b → posOf a < posOf b)
        ((r0 :: xs) ++ ys) := by
      rw [List.cons_append, hsplit]
      exact hch
    have hchainrun : List.Chain' (fun a b => posOf a < posOf b) (r0 :: xs) := by
      refine chain'_strict_of_run (c := chrOf r0) (r0 :: xs) ?_ hchfull.left_of_append
      intro a ha
      rcases List.mem_cons.mp ha with h | h
      · rw [h]
      · exact hmemxs a h
    have hchainys : List.Chain' (fun a b => chrOf a = chrOf b → posOf a < posOf b) ys :=
      hchfull.right_of_append
    have hmem_l : ∀ a ∈ r0 :: xs, a ∈ r0 :: l' := by
      intro a ha
      rcases List.mem_cons.mp ha with h | h
      · rw [h]; exact List.mem_cons_self _ _
      · exact List.mem_cons_of_mem _ (hsplit ▸ List.mem_append_left ys h)
    have hys_l : ∀ a ∈ ys, a ∈ r0 :: l' := fun a ha =>
      List.mem_cons_of_mem _ (hsplit ▸ List.mem_append_right xs ha)
    have hdictrun : ∀ d, dict = some d → ∃ len, dictFind d (chrOf r0) = some len ∧
        ∀ a ∈ r0 :: xs, posOf a ≤ len := by
      intro d hd
      refine ⟨wl, hwl d hd, ?_⟩
      intro a ha
      obtain ⟨len, hfind, hple⟩ := hdict d hd a (hmem_l a ha)
      have hca : chrOf a = chrOf r0 := by
        rcases List.mem_cons.mp ha with h | h
        · rw [h]
        · exact hmemxs a h
      rw [hca, hwl d hd] at hfind
      injection hfind with hlen
      rw [hlen]
      exact hple
    have hxle : xs.length ≤ l'.length := by
      rw [← hsplit, List.length_append]
      omega
    have hpulls := @pulls_run α chrOf posOf dict (chrOf r0) ys true 1 wl
      (chrOf r0 :: ps) hheadys xs r0 ((r0 :: l').length + 1) rfl hmemxs
      hchainrun hdictrun (by simp only [List.length_cons]; omega)
    rw [hsplit] at hpulls
    cases ys with
    | nil =>
      have hinc := @increment_skip_nil α chrOf dict
        (⟨[], true, some (chrOf r0), 1,
          finalLast dict wl (posOf (xs.getLastD r0)), false,
          chrOf r0 :: ps⟩ : EngineState α) rfl
      have hdead := @traverse_dead α chrOf posOf dict
        (⟨[], false, some (chrOf r0), 1,
          finalLast dict wl (posOf (xs.getLastD r0)), false,
          chrOf r0 :: ps⟩ : EngineState α) f rfl
      simp only [traverse, eq_self_iff_true, if_true, hpulls, hinc, hdead]
      rw [expectedWindows_cons, hxs, hys, expectedWindows_nil]
      cases dict with
      | none => simp [finalLast, expectedLast, hxs]
      | some d => simp [finalLast, expectedLast, hwl d rfl]
    | cons y ys' =>
      have hyne : chrOf y ≠ chrOf r0 := hheadys y rfl
      have hskip1 : (y :: ys').dropWhile
          (fun r => decide ((some (chrOf r0) : Option String) = some (chrOf r))) =
          y :: ys' := by
        rw [skip_pred_eq, List.dropWhile_cons, if_neg (by simp [chrIs, hyne])]
      have hnotmem : chrOf y ∉ chrOf r0 :: ps := by
        intro hmem
        rcases List.mem_cons.mp hmem with h | h
        · exact hyne h
        · exact hdisj y (hys_l y (List.mem_cons_self y ys')) h
      rw [hrh] at hnd hfl
      have hnd' := (List.nodup_cons.mp hnd).2
      have hnotin := (List.nodup_cons.mp hnd).1
      have hdisj' : ∀ a ∈ y :: ys', chrOf a ∉ chrOf r0 :: ps := by
        intro a ha hmem
        rcases List.mem_cons.mp hmem with h | h
        · exact hnotin (h ▸ chr_mem_runHeads ha)
        · exact hdisj a (hys_l a ha) h
      have hfl' : (runHeads chrOf (y :: ys')).length ≤ f := by
        simp only [List.length_cons] at hfl
        omega
      cases dict with
      | none =>
        have hinc := @increment_open_none α chrOf
          (⟨y :: ys', true, some (chrOf r0), 1,
            finalLast none wl (posOf (xs.getLastD r0)), false,
            chrOf r0 :: ps⟩ : EngineState α) y ys' hskip1 hnotmem
        have hih := ih y ys' 1 (chrOf r0 :: ps) hnd' hdisj' hchainys
          (fun d hd => Option.noConfusion hd) (fun d hd => Option.noConfusion hd) hfl'
        simp only [traverse, eq_self_iff_true, if_true, hpulls, hinc, hih]
        conv_rhs => rw [expectedWindows_cons]
        rw [hxs, hys]
        simp [finalLast, expectedLast, hxs]
      | some d =>
        obtain ⟨len1, hfind1, hple1⟩ :=
          hdict d rfl y (hys_l y (List.mem_cons_self y ys'))
        have hinc := @increment_open_some α chrOf d
          (⟨y :: ys', true, some (chrOf r0), 1,
            finalLast (some d) wl (posOf (xs.getLastD r0)), false,
            chrOf r0 :: ps⟩ : EngineState α) y ys' len1 hskip1 hnotmem hfind1
        have hih := ih y ys' len1 (chrOf r0 :: ps) hnd' hdisj' hchainys
          (fun d' hd' => by
            injection hd' with h
            subst h
            exact fun a ha => hdict d rfl a (hys_l a ha))
          (fun d' hd' => by
            injection hd' with h
            subst h
            exact hfind1) hfl'
        simp only [traverse, eq_self_iff_true, if_true, hpulls, hinc, hih]
        conv_rhs => rw [expectedWindows_cons]
        rw [hxs, hys]
        simp [finalLast, expectedLast, hwl d rfl]

/-! ## The begin state -/

theorem begin_nil {chrOf : α → String} {dict : Option SequenceDict} :
    beginState chrOf dict ([] : List α) =
      .ok ⟨[], false, none, 0, 0, true, []⟩ := rfl

theorem runStream_nil {chrOf : α → String} {posOf : α → Nat}
    {dict : Option SequenceDict} :
    runStream chrOf posOf dict ([] : List α) = .ok [] := rfl

theorem begin_skip {chrOf : α → String} (r : α) (rest : List α) :
    (r :: rest).dropWhile
        (fun x => decide ((none : Option String) = some (chrOf x))) = r :: rest := by
  rw [skip_pred_none]
  exact dropWhile_const_false _

theorem begin_cons_none {chrOf : α → String} (r : α) (rest : List α) :
    beginState chrOf none (r :: rest) =
      .ok ⟨r :: rest, true, some (chrOf r), 1, 1, true, [chrOf r]⟩ :=
  @increment_open_none α chrOf (initState (r :: rest)) r rest (begin_skip r rest)
    (by simp [initState])

theorem begin_cons_some {chrOf : α → String} {d : SequenceDict} {len : Nat}
    (r : α) (rest : List α) (hfind : dictFind d (chrOf r) = some len) :
    beginState chrOf (some d) (r :: rest) =
      .ok ⟨r :: rest, true, some (chrOf r), 1, len, true, [chrOf r]⟩ :=
  @increment_open_some α chrOf d (initState (r :: rest)) r rest len
    (begin_skip r rest) (by simp [initState]) hfind

theorem begin_cons_unknown {chrOf : α → String} {d : SequenceDict}
    (r : α) (rest : List α) (hfind : dictFind d (chrOf r) = none) :
    beginState chrOf (some d) (r :: rest) = .error (.unknownChromosome (chrOf r)) :=
  @increment_unknown α chrOf d (initState (r :: rest)) r rest
    (begin_skip r rest) (by simp [initState]) hfind

theorem expectedWindows_map_chr {chrOf : α → String} {posOf : α → Nat}
    {dict : Option SequenceDict} :
    ∀ l : List α,
      (expectedWindows chrOf posOf dict l).map WindowResult.chr = runHeads chrOf l := by
  intro l
  induction l using runHeads.induct chrOf with
  | case1 => rw [expectedWindows_nil, runHeads_nil]; rfl
  | case2 r rs ih => rw [expectedWindows_cons, runHeads_cons, List.map_cons, ih]

theorem runStream_good {chrOf : α → String} {posOf : α → Nat}
    {dict : Option SequenceDict} (recs : List α)
    (hnodup : (runHeads chrOf recs).Nodup)
    (hchain : List.Chain' (fun a b => chrOf a = chrOf b → posOf a < posOf b) recs)
    (hdict : ∀ d, dict = some d → ∀ a ∈ recs, ∃ len,
      dictFind d (chrOf a) = some len ∧ posOf a ≤ len) :
    runStream chrOf posOf dict recs = .ok (expectedWindows chrOf posOf dict recs) := by
  cases recs with
  | nil => rw [runStream_nil, expectedWindows_nil]
  | cons r rest =>
    have hfl : (runHeads chrOf (r :: rest)).length ≤ (r :: rest).length + 1 := by
      have := @runHeads_length_le α chrOf (r :: rest)
      omega
    cases dict with
    | none =>
      unfold runStream
      rw [begin_cons_none]
      exact traverse_good ((r :: rest).length + 1) r rest 1 [] hnodup (by simp)
        hchain (fun d hd => Option.noConfusion hd) (fun d hd => Option.noConfusion hd)
        hfl
    | some d =>
      obtain ⟨len, hfind, -⟩ := hdict d rfl r (List.mem_cons_self r rest)
      unfold runStream
      rw [begin_cons_some r rest hfind]
      exact traverse_good ((r :: rest).length + 1) r rest len [] hnodup (by simp)
        hchain
        (fun d' hd' => by injection hd' with h; subst h; exact hdict d rfl)
        (fun d' hd' => by injection hd' with h; subst h; exact hfind)
        hfl

/-- On any stream whose remaining chromosome runs are all fresh and
pairwise distinct, the traversal can fail for ordering or length
reasons, but never with the duplicate-chromosome error. -/
theorem traverse_ne_dup {chrOf : α → String} {posOf : α → Nat}
    {dict : Option SequenceDict} :
    ∀ (fuel : Nat) (st : EngineState α),
    (st.alive = true → ∃ c ps r0 rest, st.isFirst = true ∧ st.winChr = some c ∧
      st.processed = c :: ps ∧ st.cur = r0 :: rest ∧ chrOf r0 = c ∧
      (runHeads chrOf st.cur).Nodup ∧ (∀ a ∈ st.cur, chrOf a ∉ ps)) →
    ∀ c', traverse chrOf posOf dict fuel st ≠ .error (.duplicateChromosome c') := by
  intro fuel
  induction fuel with
  | zero =>
    intro st hinv c' h
    exact Except.noConfusion h
  | succ f ih =>
    intro st hinv c' h
    by_cases halive : st.alive = true
    case neg =>
      rw [traverse_dead _ (by simpa using halive)] at h
      exact Except.noConfusion h
    case pos =>
      obtain ⟨c, ps, r0, rest, hif, hwc, hps, hcur, hr0, hnd, hdisj⟩ := hinv halive
      simp only [traverse, halive, if_true] at h
      cases hp : pulls chrOf posOf dict (st.cur.length + 1) st with
      | error e =>
        simp only [hp] at h
        injection h with h2
        rcases pulls_error_cases hp with ⟨c1, o1, n1, he⟩ | ⟨c1, l1, o1, he⟩
        · rw [h2] at he
          exact StreamError.noConfusion he
        · rw [h2] at he
          exact StreamError.noConfusion he
      | ok out =>
        obtain ⟨rs, st1⟩ := out
        simp only [hp] at h
        obtain ⟨g1, g2, g3, g4, n, g5⟩ := pulls_ok_fields hp
        cases hskip : st1.cur.dropWhile
            (fun x => decide (st1.winChr = some (chrOf x))) with
        | nil =>
          simp only [increment_skip_nil hskip] at h
          cases ht : traverse chrOf posOf dict f
              { st1 with cur := [], alive := false } with
          | error e2 =>
            simp only [ht, Except.error.injEq] at h
            exact ih { st1 with cur := [], alive := false }
              (fun hal => by simp at hal) c' (by rw [ht, h])
          | ok ws =>
            simp only [ht] at h
            exact Except.noConfusion h
        | cons y rest1 =>
          have hpredeq : (fun x : α => decide (st1.winChr = some (chrOf x))) =
              chrIs chrOf c := by
            funext x
            rw [g2, hwc]
            simp [chrIs, eq_comm]
          have hpred := dropWhile_head?_neg
            (p := fun x => decide (st1.winChr = some (chrOf x)))
            (l := st1.cur) (by rw [hskip]; rfl)
          have hyne : chrOf y ≠ c := by
            rw [hpredeq] at hpred
            simpa [chrIs] using hpred
          have hmem_st : ∀ a ∈ y :: rest1, a ∈ st.cur := by
            intro a ha
            have h1 : a ∈ st1.cur := mem_of_mem_dropWhile (hskip ▸ ha)
            rw [g5] at h1
            exact (List.drop_sublist _ _).subset h1
          have hsub1 : ∀ a ∈ y :: rest1, a ∈ st.cur.dropWhile (chrIs chrOf c) := by
            intro a ha
            rw [← hskip, hpredeq, g5] at ha
            exact dropWhile_drop_subset _ _ _ ha
          have hrh2 : runHeads chrOf st.cur =
              c :: runHeads chrOf (st.cur.dropWhile (chrIs chrOf c)) := by
            rw [hcur]
            rw [runHeads_cons_self, hr0]
          have hchrys : ∀ a ∈ y :: rest1, chrOf a ≠ c := by
            intro a ha hac
            have hmem := @chr_mem_runHeads α chrOf _ _ (hsub1 a ha)
            rw [hac] at hmem
            have hndc : (c :: runHeads chrOf
                (st.cur.dropWhile (chrIs chrOf c))).Nodup := hrh2 ▸ hnd
            exact (List.nodup_cons.mp hndc).1 hmem
          have hnotmem : chrOf y ∉ st1.processed := by
            rw [g4, hps]
            intro hm
            rcases List.mem_cons.mp hm with hh | hh
            · exact hyne hh
            · exact hdisj y (hmem_st y (List.mem_cons_self y rest1)) hh
          have hnd1 : (runHeads chrOf (y :: rest1)).Nodup := by
            obtain ⟨m, hm⟩ := dropWhile_eq_drop
              (fun x => decide (st1.winChr = some (chrOf x))) st1.cur
            rw [← hskip, hm, g5, List.drop_drop]
            exact nodup_runHeads_drop _ hnd
          have hinv1 : ∀ a ∈ y :: rest1, chrOf a ∉ st1.processed := by
            intro a ha
            rw [g4, hps]
            intro hm
            rcases List.mem_cons.mp hm with hh | hh
            · exact hchrys a ha hh
            · exact hdisj a (hmem_st a ha) hh
          cases dict with
          | none =>
            simp only [increment_open_none hskip hnotmem] at h
            cases ht : traverse chrOf posOf none f
                ⟨y :: rest1, true, some (chrOf y), 1, 1, true,
                  chrOf y :: st1.processed⟩ with
            | error e2 =>
              simp only [ht, Except.error.injEq] at h
              refine ih _ ?_ c' (by rw [ht, h])
              intro _
              exact ⟨chrOf y, st1.processed, y, rest1, rfl, rfl, rfl, rfl, rfl,
                hnd1, hinv1⟩
            | ok ws =>
              simp only [ht] at h
              exact Except.noConfusion h
          | some d =>
            cases hfind : dictFind d (chrOf y) with
            | none =>
              simp only [increment_unknown hskip hnotmem hfind,
                Except.error.injEq] at h
              exact StreamError.noConfusion h
            | some len =>
              simp only [increment_open_some hskip hnotmem hfind] at h
              cases ht : traverse chrOf posOf (some d) f
                  ⟨y :: rest1, true, some (chrOf y), 1, len, true,
                    chrOf y :: st1.processed⟩ with
              | error e2 =>
                simp only [ht, Except.error.injEq] at h
                refine ih _ ?_ c' (by rw [ht, h])
                intro _
                exact ⟨chrOf y, st1.processed, y, rest1, rfl, rfl, rfl, rfl, rfl,
                  hnd1, hinv1⟩
              | ok ws =>
                simp only [ht] at h
                exact Except.noConfusion h

theorem runStream_ne_dup {chrOf : α → String} {posOf : α → Nat}
    {dict : Option SequenceDict} (recs : List α)
    (hnodup : (runHeads chrOf recs).Nodup) :
    ∀ c', runStream chrOf posOf dict recs ≠ .error (.duplicateChromosome c') := by
  intro c' h
  cases recs with
  | nil =>
    rw [runStream_nil] at h
    exact Except.noConfusion h
  | cons r rest =>
    unfold runStream at h
    cases dict with
    | none =>
      rw [begin_cons_none] at h
      exact traverse_ne_dup _ _
        (fun _ => ⟨chrOf r, [], r, rest, rfl, rfl, rfl, rfl, rfl, hnodup, by simp⟩)
        c' h
    | some d =>
      cases hfind : dictFind d (chrOf r) with
      | none =>
        rw [begin_cons_unknown r rest hfind] at h
        injection h with h2
        exact StreamError.noConfusion h2
      | some len =>
        rw [begin_cons_some r rest hfind] at h
        exact traverse_ne_dup _ _
          (fun _ => ⟨chrOf r, [], r, rest, rfl, rfl, rfl, rfl, rfl, hnodup, by simp⟩)
          c' h

theorem pull_some_fields {chrOf : α → String} {posOf : α → Nat}
    {dict : Option SequenceDict} {cur : List α} {al : Bool} {wc : Option String}
    {w1 wl : Nat} {if1 : Bool} {ps : List String} {x : α} {st' : EngineState α}
    (h : pull chrOf posOf dict (⟨cur, al, wc, w1, wl, if1, ps⟩ : EngineState α) =
      .ok (some x, st')) :
    st'.winFirst = w1 ∧ st'.winLast = wl := by
  cases if1 with
  | true =>
    cases cur with
    | nil =>
      simp only [pull, eq_self_iff_true, if_true, Bool.false_eq_true, if_false,
        Except.ok.injEq, Prod.mk.injEq] at h
      exact absurd h.1 (by simp)
    | cons r rest =>
      simp only [pull, eq_self_iff_true, if_true, Bool.false_eq_true, if_false,
        Except.ok.injEq, Prod.mk.injEq] at h
      obtain ⟨-, h2⟩ := h
      subst h2
      exact ⟨rfl, rfl⟩
  | false =>
    cases wc with
    | none =>
      simp only [pull, eq_self_iff_true, if_true, Bool.false_eq_true, if_false,
        Except.ok.injEq, Prod.mk.injEq] at h
      exact absurd h.1 (by simp)
    | some chr =>
      cases cur with
      | nil =>
        simp only [pull, eq_self_iff_true, if_true, Bool.false_eq_true, if_false,
        Except.ok.injEq, Prod.mk.injEq] at h
        exact absurd h.1 (by simp)
      | cons r rest =>
        cases rest with
        | nil =>
          simp only [pull, eq_self_iff_true, if_true, Bool.false_eq_true, if_false] at h
          have hf := endOfRun_ok h
          exact absurd hf.1 (by simp)
        | cons next rest2 =>
          by_cases hc : chrOf next = chr
          · by_cases hle : posOf next ≤ posOf r
            · simp only [pull, eq_self_iff_true, if_true, Bool.false_eq_true,
                if_false, hc, if_pos hle] at h
              exact Except.noConfusion h
            · simp only [pull, eq_self_iff_true, if_true, Bool.false_eq_true,
                if_false, hc, if_neg hle, Except.ok.injEq, Prod.mk.injEq] at h
              obtain ⟨-, h2⟩ := h
              subst h2
              exact ⟨rfl, rfl⟩
          · simp only [pull, eq_self_iff_true, if_true, Bool.false_eq_true, if_false,
              if_neg hc] at h
            have hf := endOfRun_ok h
            exact absurd hf.1 (by simp)

theorem pull_some_advance {chrOf : α → String} {posOf : α → Nat}
    {dict : Option SequenceDict} {cur : List α} {al : Bool} {wc : Option String}
    {w1 wl : Nat} {ps : List String} {x : α} {st' : EngineState α}
    (h : pull chrOf posOf dict (⟨cur, al, wc, w1, wl, false, ps⟩ : EngineState α) =
      .ok (some x, st')) :
    st'.cur = cur.tail ∧ st'.cur.head? = some x := by
  cases wc with
  | none =>
    simp only [pull, eq_self_iff_true, if_true, Bool.false_eq_true, if_false,
        Except.ok.injEq, Prod.mk.injEq] at h
    exact absurd h.1 (by simp)
  | some chr =>
    cases cur with
    | nil =>
      simp only [pull, eq_self_iff_true, if_true, Bool.false_eq_true, if_false,
        Except.ok.injEq, Prod.mk.injEq] at h
      exact absurd h.1 (by simp)
    | cons r rest =>
      cases rest with
      | nil =>
        simp only [pull, eq_self_iff_true, if_true, Bool.false_eq_true, if_false] at h
        have hf := endOfRun_ok h
        exact absurd hf.1 (by simp)
      | cons next rest2 =>
        by_cases hc : chrOf next = chr
        · by_cases hle : posOf next ≤ posOf r
          · simp only [pull, eq_self_iff_true, if_true, Bool.false_eq_true,
              if_false, hc, if_pos hle] at h
            exact Except.noConfusion h
          · simp only [pull, eq_self_iff_true, if_true, Bool.false_eq_true,
              if_false, hc, if_neg hle, Except.ok.injEq, Prod.mk.injEq] at h
            obtain ⟨hx, h2⟩ := h
            subst h2
            injection hx with hx
            subst hx
            exact ⟨rfl, rfl⟩
        · simp only [pull, eq_self_iff_true, if_true, Bool.false_eq_true, if_false,
            if_neg hc] at h
          have hf := endOfRun_ok h
          exact absurd hf.1 (by simp)

/-! ## The claims -/

/-- C1: within a chromosome run, a pull that advances to a record on the
same chromosome raises `OutOfOrderPosition` (naming the chromosome and
both positions) exactly when `old_pos >= new_pos`; otherwise it returns
the next record, and over a strictly increasing run all pulls succeed,
returning the run's records with strictly increasing positions. -/
theorem claim_C1 (chrOf : α → String) (posOf : α → Nat) (dict : Option SequenceDict)
    (c : String) (r next : α) (rest2 : List α) (al : Bool) (w1 wl : Nat)
    (ps : List String) (hc : chrOf next = c) :
    (pull chrOf posOf dict
        (⟨r :: next :: rest2, al, some c, w1, wl, false, ps⟩ : EngineState α) =
        .error (.outOfOrderPosition c (posOf r) (posOf next)) ↔ posOf next ≤ posOf r) ∧
    (posOf r < posOf next →
      pull chrOf posOf dict
        (⟨r :: next :: rest2, al, some c, w1, wl, false, ps⟩ : EngineState α) =
        .ok (some next, ⟨next :: rest2, al, some c, w1, wl, false, ps⟩)) ∧
    (∀ (x : α) (xs ys : List α) (fuel : Nat),
      chrOf x = c → (∀ a ∈ xs, chrOf a = c) →
      (∀ y, ys.head? = some y → chrOf y ≠ c) →
      List.Chain' (fun a b => posOf a < posOf b) (x :: xs) →
      (∀ d, dict = some d → ∃ len, dictFind d c = some len ∧
        ∀ a ∈ x :: xs, posOf a ≤ len) →
      xs.length + 1 < fuel →
      pulls chrOf posOf dict fuel
          (⟨x :: (xs ++ ys), al, some c, w1, wl, true, ps⟩ : EngineState α) =
        .ok (x :: xs, ⟨ys, al, some c, w1,
          finalLast dict wl (posOf (xs.getLastD x)), false, ps⟩) ∧
      List.Chain' (fun a b => a < b) ((x :: xs).map posOf)) := by
  refine ⟨⟨?_, ?_⟩, ?_, ?_⟩
  · intro h
    by_contra hlt
    push_neg at hlt
    rw [pull_step hc hlt] at h
    exact Except.noConfusion h
  · intro hle
    exact pull_step_ooo hc hle
  · intro hlt
    exact pull_step hc hlt
  · intro x xs ys fuel hx hxs hys hchain hdict hfuel
    refine ⟨pulls_run hys xs x fuel hx hxs hchain hdict hfuel, ?_⟩
    exact (List.chain'_map posOf).mpr hchain

theorem claim_C1_witness :
    pull GRec.chromosome GRec.position none
        (⟨[⟨"chr1", 5⟩, ⟨"chr1", 3⟩], true, some "chr1", 1, 1, false, ["chr1"]⟩ :
          EngineState GRec) =
      .error (.outOfOrderPosition "chr1" 5 3) :=
  (claim_C1 GRec.chromosome GRec.position none "chr1" ⟨"chr1", 5⟩ ⟨"chr1", 3⟩ []
    true 1 1 ["chr1"] rfl).1.mpr (by decide)

/-- C2: a record stream with distinct contiguous chromosome runs,
strictly increasing positions per run, and records covered by the
boundary source when one is present, yields exactly one window per run,
in first-seen order; an empty stream yields zero windows and its begin
iterator is immediately in the end state. -/
theorem claim_C2 (chrOf : α → String) (posOf : α → Nat) (dict : Option SequenceDict)
    (recs : List α)
    (hnodup : (runHeads chrOf recs).Nodup)
    (hchain : List.Chain' (fun a b => chrOf a = chrOf b → posOf a < posOf b) recs)
    (hdict : ∀ d, dict = some d → ∀ a ∈ recs, ∃ len,
      dictFind d (chrOf a) = some len ∧ posOf a ≤ len) :
    runStream chrOf posOf dict recs = .ok (expectedWindows chrOf posOf dict recs) ∧
    (expectedWindows chrOf posOf dict recs).map WindowResult.chr = runHeads chrOf recs ∧
    (expectedWindows chrOf posOf dict recs).length = (runHeads chrOf recs).length ∧
    runStream chrOf posOf dict ([] : List α) = .ok [] ∧
    ∃ st0, beginState chrOf dict ([] : List α) = .ok st0 ∧ st0.alive = false := by
  refine ⟨runStream_good recs hnodup hchain hdict, expectedWindows_map_chr recs, ?_,
    runStream_nil, ⟨_, begin_nil, rfl⟩⟩
  conv_rhs => rw [← @expectedWindows_map_chr α chrOf posOf dict recs]
  rw [List.length_map]

theorem claim_C2_witness :
    runStream GRec.chromosome GRec.position none
        [⟨"chr1", 1⟩, ⟨"chr1", 2⟩, ⟨"chr2", 5⟩] =
      .ok (expectedWindows GRec.chromosome GRec.position none
        [⟨"chr1", 1⟩, ⟨"chr1", 2⟩, ⟨"chr2", 5⟩]) :=
  (claim_C2 GRec.chromosome GRec.position none _
    (by
      have h : runHeads GRec.chromosome
          [⟨"chr1", 1⟩, ⟨"chr1", 2⟩, ⟨"chr2", 5⟩] = ["chr1", "chr2"] := by
        simp [runHeads, chrIs, List.dropWhile_cons]
      rw [h]
      decide)
    (by
      rw [List.chain'_cons, List.chain'_cons]
      refine ⟨?_, ?_, List.chain'_singleton _⟩ <;> decide)
    (fun d hd => Option.noConfusion hd)).1

/-- C3: advancing the outer iterator raises `DuplicateChromosome`,
naming the chromosome, exactly when the chromosome at which the next
window would open is already in the processed set; a stream whose runs
carry pairwise distinct chromosome names never produces this error. -/
theorem claim_C3 (chrOf : α → String) (posOf : α → Nat) (dict : Option SequenceDict)
    (st : EngineState α) (r : α) (rest : List α)
    (hskip : st.cur.dropWhile (fun x => decide (st.winChr = some (chrOf x))) = r :: rest) :
    (increment chrOf dict st = .error (.duplicateChromosome (chrOf r)) ↔
      chrOf r ∈ st.processed) ∧
    (∀ recs : List α, (runHeads chrOf recs).Nodup →
      ∀ c', runStream chrOf posOf dict recs ≠ .error (.duplicateChromosome c')) := by
  refine ⟨⟨?_, increment_dup hskip⟩, fun recs hnd c' => runStream_ne_dup recs hnd c'⟩
  intro h
  by_contra hmem
  cases dict with
  | none =>
    rw [increment_open_none hskip hmem] at h
    exact Except.noConfusion h
  | some d =>
    cases hfind : dictFind d (chrOf r) with
    | none =>
      rw [increment_unknown hskip hmem hfind] at h
      injection h with h2
      exact StreamError.noConfusion h2
    | some len =>
      rw [increment_open_some hskip hmem hfind] at h
      exact Except.noConfusion h

theorem claim_C3_witness :
    increment GRec.chromosome none
        (⟨[⟨"chr1", 9⟩], true, some "chr2", 1, 1, false, ["chr2", "chr1"]⟩ :
          EngineState GRec) =
      .error (.duplicateChromosome "chr1") :=
  (claim_C3 GRec.chromosome GRec.position none _ ⟨"chr1", 9⟩ [] (by decide)).1.mpr
    (by decide)

/-- C4: with a boundary source configured, opening a window for a
chromosome absent from the source raises `UnknownChromosomeInBoundarySource`
naming it; for a present chromosome the fresh window has
`first_position = 1` and `last_position` equal to the looked-up length. -/
theorem claim_C4 (chrOf : α → String) (d : SequenceDict) (st : EngineState α)
    (r : α) (rest : List α)
    (hskip : st.cur.dropWhile (fun x => decide (st.winChr = some (chrOf x))) = r :: rest)
    (hnot : chrOf r ∉ st.processed) :
    (dictFind d (chrOf r) = none →
      increment chrOf (some d) st = .error (.unknownChromosome (chrOf r))) ∧
    (∀ len, dictFind d (chrOf r) = some len →
      increment chrOf (some d) st =
        .ok ⟨r :: rest, true, some (chrOf r), 1, len, true, chrOf r :: st.processed⟩) :=
  ⟨fun hfind => increment_unknown hskip hnot hfind,
   fun _ hfind => increment_open_some hskip hnot hfind⟩

theorem claim_C4_witness :
    increment GRec.chromosome (some [("chr1", 1000)])
        (⟨[⟨"chr1", 10⟩], true, none, 0, 0, true, []⟩ : EngineState GRec) =
      .ok ⟨[⟨"chr1", 10⟩], true, some "chr1", 1, 1000, true, ["chr1"]⟩ :=
  (claim_C4 GRec.chromosome [("chr1", 1000)] _ ⟨"chr1", 10⟩ [] (by decide)
    (by decide)).2 1000 (by decide)

/-- C5: under the reference-driven policy, the pull that detects the
end of a run raises `ChromosomeLengthExceeded` (naming chromosome,
declared length and observed position) iff the last returned record's
position exceeds the declared length; otherwise the run completes and
`last_position` keeps the declared length, also when every observed
position is strictly below it. -/
theorem claim_C5 (chrOf : α → String) (posOf : α → Nat) (d : SequenceDict)
    (c : String) (len : Nat) (hfind : dictFind d c = some len)
    (r : α) (rest : List α) (al : Bool) (w1 : Nat) (ps : List String)
    (hend : ∀ y, rest.head? = some y → chrOf y ≠ c) :
    (pull chrOf posOf (some d)
        (⟨r :: rest, al, some c, w1, len, false, ps⟩ : EngineState α) =
        .error (.chromosomeLengthExceeded c len (posOf r)) ↔ len < posOf r) ∧
    (posOf r ≤ len →
      pull chrOf posOf (some d)
        (⟨r :: rest, al, some c, w1, len, false, ps⟩ : EngineState α) =
        .ok (none, ⟨rest, al, some c, w1, len, false, ps⟩)) ∧
    (∀ (x : α) (xs ys : List α) (fuel : Nat),
      chrOf x = c → (∀ a ∈ xs, chrOf a = c) →
      (∀ y, ys.head? = some y → chrOf y ≠ c) →
      List.Chain' (fun a b => posOf a < posOf b) (x :: xs) →
      (∀ a ∈ x :: xs, posOf a ≤ len) →
      xs.length + 1 < fuel →
      pulls chrOf posOf (some d) fuel
          (⟨x :: (xs ++ ys), al, some c, w1, len, true, ps⟩ : EngineState α) =
        .ok (x :: xs, ⟨ys, al, some c, w1, len, false, ps⟩)) := by
  refine ⟨⟨?_, ?_⟩, ?_, ?_⟩
  · intro h
    by_contra hle
    push_neg at hle
    rw [pull_runEnd hend, endOfRun_some_ok hfind hle] at h
    exact Except.noConfusion h
  · intro hlt
    rw [pull_runEnd hend, endOfRun_some_err hfind hlt]
  · intro hle
    rw [pull_runEnd hend, endOfRun_some_ok hfind hle]
  · intro x xs ys fuel hx hxs hys hchain hall hfuel
    exact pulls_run hys xs x fuel hx hxs hchain
      (fun d' hd' => by
        injection hd' with hh
        subst hh
        exact ⟨len, hfind, hall⟩) hfuel

theorem claim_C5_witness :
    pull GRec.chromosome GRec.position (some [("chr1", 1000)])
        (⟨[⟨"chr1", 1001⟩], true, some "chr1", 1, 1000, false, ["chr1"]⟩ :
          EngineState GRec) =
      .error (.chromosomeLengthExceeded "chr1" 1000 1001) :=
  (claim_C5 GRec.chromosome GRec.position [("chr1", 1000)] "chr1" 1000 (by decide)
    ⟨"chr1", 1001⟩ [] true 1 ["chr1"]
    (fun y hy => Option.noConfusion hy)).1.mpr (by decide)

/-- C6: under the data-driven policy, a fresh window carries the
placeholders `first_position = 1`, `last_position = 1`; pulls that
return a record leave both bounds untouched; and the pull that returns
the exhausted sentinel sets `last_position` to the position of the last
returned record — the only point where the bound becomes known. -/
theorem claim_C6 (chrOf : α → String) (posOf : α → Nat) :
    (∀ (st : EngineState α) (r : α) (rest : List α),
      st.cur.dropWhile (fun x => decide (st.winChr = some (chrOf x))) = r :: rest →
      chrOf r ∉ st.processed →
      increment chrOf none st =
        .ok ⟨r :: rest, true, some (chrOf r), 1, 1, true, chrOf r :: st.processed⟩) ∧
    (∀ (cur : List α) (al : Bool) (wc : Option String) (w1 wl : Nat) (if1 : Bool)
      (ps : List String) (x : α) (st' : EngineState α),
      pull chrOf posOf none (⟨cur, al, wc, w1, wl, if1, ps⟩ : EngineState α) =
        .ok (some x, st') →
      st'.winFirst = w1 ∧ st'.winLast = wl) ∧
    (∀ (c : String) (r : α) (rest : List α) (al : Bool) (w1 wl : Nat)
      (ps : List String),
      (∀ y, rest.head? = some y → chrOf y ≠ c) →
      pull chrOf posOf none (⟨r :: rest, al, some c, w1, wl, false, ps⟩ : EngineState α) =
        .ok (none, ⟨rest, al, some c, w1, posOf r, false, ps⟩)) := by
  refine ⟨?_, ?_, ?_⟩
  · intro st r rest hskip hnot
    exact increment_open_none hskip hnot
  · intro cur al wc w1 wl if1 ps x st' h
    exact pull_some_fields h
  · intro c r rest al w1 wl ps hend
    rw [pull_runEnd hend, endOfRun_none_eq]

theorem claim_C6_witness :
    pull GRec.chromosome GRec.position none
        (⟨[⟨"chr1", 30⟩], true, some "chr1", 1, 1, false, ["chr1"]⟩ :
          EngineState GRec) =
      .ok (none, ⟨[], true, some "chr1", 1, 30, false, ["chr1"]⟩) :=
  (claim_C6 GRec.chromosome GRec.position).2.2 "chr1" ⟨"chr1", 30⟩ [] true 1 1
    ["chr1"] (fun _ hy => Option.noConfusion hy)

/-- C7: the first pull of a fresh window returns the record under the
engine cursor without advancing it; every later record-returning pull
first advances the cursor and returns the record it lands on. -/
theorem claim_C7 (chrOf : α → String) (posOf : α → Nat) (dict : Option SequenceDict) :
    (∀ (st : EngineState α) (r : α) (rest : List α),
      st.isFirst = true → st.cur = r :: rest →
      pull chrOf posOf dict st = .ok (some r, { st with isFirst := false })) ∧
    (∀ (cur : List α) (al : Bool) (wc : Option String) (w1 wl : Nat)
      (ps : List String) (x : α) (st' : EngineState α),
      pull chrOf posOf dict (⟨cur, al, wc, w1, wl, false, ps⟩ : EngineState α) =
        .ok (some x, st') →
      st'.cur = cur.tail ∧ st'.cur.head? = some x) :=
  ⟨fun _ _ _ hif hcur => pull_first hif hcur,
   fun _ _ _ _ _ _ _ _ h => pull_some_advance h⟩

theorem claim_C7_witness :
    pull GRec.chromosome GRec.position none
        (⟨[⟨"chr1", 10⟩, ⟨"chr1", 20⟩], true, some "chr1", 1, 1, true, ["chr1"]⟩ :
          EngineState GRec) =
      .ok (some ⟨"chr1", 10⟩,
        ⟨[⟨"chr1", 10⟩, ⟨"chr1", 20⟩], true, some "chr1", 1, 1, false, ["chr1"]⟩) :=
  (claim_C7 GRec.chromosome GRec.position none).1 _ ⟨"chr1", 10⟩ [⟨"chr1", 20⟩]
    rfl rfl

/-- C8: when the current window is abandoned mid-run, the next advance
skips exactly the remaining records of the current chromosome: it lands
on the first record of the next run (opening its window) or exhausts
the stream, and every record of the newly opened run belongs to a
different chromosome than the abandoned one. -/
theorem claim_C8 (chrOf : α → String) (dict : Option SequenceDict)
    (c : String) (st : EngineState α) (xs ys : List α)
    (hwc : st.winChr = some c) (hcur : st.cur = xs ++ ys)
    (hxs : ∀ a ∈ xs, chrOf a = c) (hys : ∀ y, ys.head? = some y → chrOf y ≠ c) :
    (ys = [] → increment chrOf dict st = .ok { st with cur := [], alive := false }) ∧
    (∀ r rest, ys = r :: rest → chrOf r ∉ st.processed →
      (dict = none → increment chrOf dict st =
        .ok ⟨r :: rest, true, some (chrOf r), 1, 1, true, chrOf r :: st.processed⟩) ∧
      (∀ d len, dict = some d → dictFind d (chrOf r) = some len →
        increment chrOf dict st =
          .ok ⟨r :: rest, true, some (chrOf r), 1, len, true, chrOf r :: st.processed⟩) ∧
      (∀ a ∈ (r :: rest).takeWhile (chrIs chrOf (chrOf r)), chrOf a ≠ c)) := by
  have hskip : st.cur.dropWhile (fun x => decide (st.winChr = some (chrOf x))) = ys := by
    have hfun : (fun x : α => decide (st.winChr = some (chrOf x))) = chrIs chrOf c := by
      funext x
      rw [hwc]
      simp [chrIs, eq_comm]
    rw [hfun, hcur, dropWhile_append_pos (fun x hx => by simp [chrIs, hxs x hx])]
    cases ys with
    | nil => rfl
    | cons y t =>
      rw [List.dropWhile_cons, if_neg (by simp [chrIs]; exact hys y rfl)]
  refine ⟨?_, ?_⟩
  · intro hnil
    exact increment_skip_nil (by rw [hskip, hnil])
  · intro r rest hcons hnot
    have hskip2 : st.cur.dropWhile (fun x => decide (st.winChr = some (chrOf x))) =
        r :: rest := by rw [hskip, hcons]
    refine ⟨?_, ?_, ?_⟩
    · intro hd
      subst hd
      exact increment_open_none hskip2 hnot
    · intro d len hd hfind
      subst hd
      exact increment_open_some hskip2 hnot hfind
    · intro a ha
      have hac : chrOf a = chrOf r := mem_takeWhile_chr ha
      rw [hac]
      exact hys r (by rw [hcons]; rfl)

theorem claim_C8_witness :
    increment GRec.chromosome none
        (⟨[⟨"chr1", 30⟩, ⟨"chr1", 40⟩, ⟨"chr1", 50⟩, ⟨"chr2", 7⟩], true,
          some "chr1", 1, 1, false, ["chr1"]⟩ : EngineState GRec) =
      .ok ⟨[⟨"chr2", 7⟩], true, some "chr2", 1, 1, true, ["chr2", "chr1"]⟩ :=
  ((claim_C8 GRec.chromosome none "chr1"
      (⟨[⟨"chr1", 30⟩, ⟨"chr1", 40⟩, ⟨"chr1", 50⟩, ⟨"chr2", 7⟩], true,
        some "chr1", 1, 1, false, ["chr1"]⟩ : EngineState GRec)
      [⟨"chr1", 30⟩, ⟨"chr1", 40⟩, ⟨"chr1", 50⟩] [⟨"chr2", 7⟩]
      rfl rfl (by decide)
      (fun y hy => by
        simp only [List.head?_cons, Option.some_inj] at hy
        subst hy
        decide)).2 ⟨"chr2", 7⟩ [] rfl (by decide)).1 rfl

/-- C9: the skip loop of an advance compares only chromosome names:
the records it skips are never inspected further, so their positions
(ordered or not, within declared bounds or not) cannot influence the
result, and the advance itself can only fail with a duplicate- or
unknown-chromosome error, never with a position or length error. -/
theorem claim_C9 (chrOf : α → String) (dict : Option SequenceDict)
    (c : String) (st : EngineState α) (xs ys : List α)
    (hwc : st.winChr = some c) (hxs : ∀ a ∈ xs, chrOf a = c) :
    increment chrOf dict { st with cur := xs ++ ys } =
      increment chrOf dict { st with cur := ys } ∧
    (∀ e, increment chrOf dict st = .error e →
      (∃ cc, e = .duplicateChromosome cc) ∨ (∃ cc, e = .unknownChromosome cc)) := by
  constructor
  · have key : (xs ++ ys).dropWhile (fun x => decide (st.winChr = some (chrOf x))) =
        ys.dropWhile (fun x => decide (st.winChr = some (chrOf x))) :=
      dropWhile_append_pos (fun x hx => by rw [hwc]; simp [hxs x hx])
    simp only [increment, key]
  · intro e he
    cases hskip : st.cur.dropWhile (fun x => decide (st.winChr = some (chrOf x))) with
    | nil =>
      rw [increment_skip_nil hskip] at he
      exact Except.noConfusion he
    | cons r rest =>
      by_cases hmem : chrOf r ∈ st.processed
      · rw [increment_dup hskip hmem] at he
        injection he with he2
        exact Or.inl ⟨chrOf r, he2.symm⟩
      · cases dict with
        | none =>
          rw [increment_open_none hskip hmem] at he
          exact Except.noConfusion he
        | some d =>
          cases hfind : dictFind d (chrOf r) with
          | none =>
            rw [increment_unknown hskip hmem hfind] at he
            injection he with he2
            exact Or.inr ⟨chrOf r, he2.symm⟩
          | some len =>
            rw [increment_open_some hskip hmem hfind] at he
            exact Except.noConfusion he

theorem claim_C9_witness :
    increment GRec.chromosome none
        (⟨[⟨"chr1", 5⟩, ⟨"chr1", 3⟩, ⟨"chr2", 7⟩], true, some "chr1", 1, 1, false,
          ["chr1"]⟩ : EngineState GRec) =
      increment GRec.chromosome none
        (⟨[⟨"chr2", 7⟩], true, some "chr1", 1, 1, false, ["chr1"]⟩ :
          EngineState GRec) :=
  (claim_C9 GRec.chromosome none "chr1"
    (⟨[], true, some "chr1", 1, 1, false, ["chr1"]⟩ : EngineState GRec)
    [⟨"chr1", 5⟩, ⟨"chr1", 3⟩] [⟨"chr2", 7⟩] rfl (by decide)).1

/-- C10: a chromosome is inserted into the processed set at the moment
its window is opened (with the fresh window's first-pull flag still
set), pulls never modify the processed set, and a chromosome found in
the processed set at the next window opening triggers
`DuplicateChromosome` — also when the earlier window saw no pull. -/
theorem claim_C10 (chrOf : α → String) (posOf : α → Nat) (dict : Option SequenceDict) :
    (∀ (st st' : EngineState α), increment chrOf dict st = .ok st' →
      st'.alive = true →
      ∃ c', st'.winChr = some c' ∧ c' ∈ st'.processed ∧ st'.isFirst = true) ∧
    (∀ (st : EngineState α) (out : Option α × EngineState α),
      pull chrOf posOf dict st = .ok out → out.2.processed = st.processed) ∧
    (∀ (st : EngineState α) (r : α) (rest : List α),
      st.cur.dropWhile (fun x => decide (st.winChr = some (chrOf x))) = r :: rest →
      chrOf r ∈ st.processed →
      increment chrOf dict st = .error (.duplicateChromosome (chrOf r))) := by
  refine ⟨?_, ?_, fun st r rest hskip hmem => increment_dup hskip hmem⟩
  · intro st st' hok halive
    cases hskip : st.cur.dropWhile (fun x => decide (st.winChr = some (chrOf x))) with
    | nil =>
      rw [increment_skip_nil hskip] at hok
      injection hok with h2
      rw [← h2] at halive
      simp at halive
    | cons r rest =>
      by_cases hmem : chrOf r ∈ st.processed
      · rw [increment_dup hskip hmem] at hok
        exact Except.noConfusion hok
      · cases dict with
        | none =>
          rw [increment_open_none hskip hmem] at hok
          injection hok with h2
          subst h2
          exact ⟨chrOf r, rfl, List.mem_cons_self _ _, rfl⟩
        | some d =>
          cases hfind : dictFind d (chrOf r) with
          | none =>
            rw [increment_unknown hskip hmem hfind] at hok
            exact Except.noConfusion hok
          | some len =>
            rw [increment_open_some hskip hmem hfind] at hok
            injection hok with h2
            subst h2
            exact ⟨chrOf r, rfl, List.mem_cons_self _ _, rfl⟩
  · intro st out h
    obtain ⟨cur, al, wc, w1, wl, if1, ps⟩ := st
    obtain ⟨x, st2⟩ := out
    exact (pull_ok_fields h).2.2.2.1

theorem claim_C10_witness :
    increment GRec.chromosome none
        (⟨[⟨"chr2", 2⟩, ⟨"chr1", 3⟩], true, some "chr2", 1, 1, true,
          ["chr2", "chr1"]⟩ : EngineState GRec) =
      .error (.duplicateChromosome "chr1") :=
  (claim_C10 GRec.chromosome GRec.position none).2.2 _ ⟨"chr1", 3⟩ [] (by decide)
    (by decide)
